import Mathlib

/-
Verification of the kernel layer of `pycudf/cudautils.py`.

The device kernels are shallowly embedded as pure Lean functions:

* device buffers of values become `List Int` (the dtypes involved are
  fixed-width integers or floats; all claims checked here are
  dtype-independent, so integer values model the payload);
* the bit-packed validity mask becomes `List Nat`, one natural number
  per mask word (each word produced by the mask kernels fits in
  `mask_bitsize` bits);
* a kernel launched over a grid of independent threads that each write
  one distinct cell becomes a map or a fold over the thread ids; the
  single-block serial sections (the prefix-sum and the unique-set
  insertion, both executed by thread 0 between barriers, or by a single
  warp in lockstep) become ordinary sequential recursion;
* counts held in `uint64` / `intp` cells stay `Nat` / `Int`: every count
  manipulated here is bounded by the array length, far below 2^64, so
  wraparound cannot occur and no modular reduction is needed.
-/

/-- Modelled from the spec: the constant `mask_bitsize` is imported from
`pycudf.utils`, a module absent from the sources. Section 3 of the spec
fixes the mask word width `W` to the native parallel-execution group
size, typically 32, and the rank kernel (shared array of 33 slots,
sliced to 32, launched as one 32-thread block) confirms `W = 32`. -/
def mask_bitsize : Nat := 32

/-- Device helper `gpu_mask_get` (cudautils.py lines 81-83): read bit
`pos` of the packed mask: word `pos / 32`, bit offset `pos % 32`. The
source does no bounds checking; reading past the supplied words yields
the default word 0 here. -/
def gpu_mask_get (mask : List Nat) (pos : Nat) : Nat :=
  ((mask.getD (pos / mask_bitsize) 0) >>> (pos % mask_bitsize)) &&& 1

/-- Number of set validity bits among logical positions `0 .. n-1`:
the reference notion of "count of valid elements". -/
def validCount (mask : List Nat) (n : Nat) : Nat :=
  ((List.range n).filter (fun j => gpu_mask_get mask j = 1)).length

/-- Kernel `gpu_set_mask_from_stride`, body of one thread `tid`
(cudautils.py lines 61-72): build the full mask word for word index
`tid`, bit `shift` set iff `(tid*32 + shift) % stride == 0`. -/
def gpu_set_mask_from_stride_word (stride tid : Nat) : Nat :=
  (List.range mask_bitsize).foldl
    (fun val shift =>
      val ||| ((if (tid * mask_bitsize + shift) % stride = 0 then 1 else 0) <<< shift))
    0

/-- Host wrapper `set_mask_from_stride` (cudautils.py lines 75-78): one
thread per mask word, each writing its word independently; the mask
buffer of `nwords` words is overwritten. -/
def set_mask_from_stride (nwords stride : Nat) : List Nat :=
  (List.range nwords).map (gpu_set_mask_from_stride_word stride)

/-- Device helper `gpu_prefixsum` (cudautils.py lines 86-94): serial
exclusive prefix sum over `data`, carrying `initial`; returns the
updated cells and the final accumulator. -/
def gpu_prefixsum : List Nat → Nat → List Nat × Nat
  | [], acc => ([], acc)
  | x :: xs, acc =>
    let r := gpu_prefixsum xs (acc + x)
    (acc :: r.1, r.2)

/-- One chunk of the rank kernel (cudautils.py lines 110-114): thread
`t` of the 32-thread block loads `sm_prefix[t] := bit (base+t)` when in
range, else leaves its zeroed slot. -/
def chunk_bits (mask : List Nat) (size base : Nat) : List Nat :=
  (List.range mask_bitsize).map
    (fun t => if base + t < size then gpu_mask_get mask (base + t) else 0)

/-- Chunked loop of kernel `gpu_mask_assign_slot` (cudautils.py lines
110-120). Each iteration loads a 32-bit chunk, thread 0 runs the serial
exclusive prefix sum carrying `offset` across chunks, and the in-range
prefix cells are written back as the ranks of the chunk. `fuel` is the
number of chunk iterations, `(size + 31) / 32` at top level. -/
def assign_slots_aux (mask : List Nat) (size : Nat) : Nat → Nat → Nat → List Nat
  | 0, _, _ => []
  | fuel + 1, base, offset =>
    let r := gpu_prefixsum (chunk_bits mask size base) offset
    (r.1.take (size - base)) ++ assign_slots_aux mask size fuel (base + 32) r.2

/-- Kernel `gpu_mask_assign_slot` (cudautils.py lines 97-120), launched
as a single 32-thread block (`[1, 32]`, one warp in lockstep): the slot
array of length `size` receives the exclusive prefix sum of the
validity bits. -/
def gpu_mask_assign_slot (mask : List Nat) (size : Nat) : List Nat :=
  assign_slots_aux mask size ((size + 31) / 32) 0 0

/-- Kernel `gpu_copy_to_dense` (cudautils.py lines 123-128): every
thread `tid < data.size` with its validity bit set writes `data[tid]`
into `out[slots[tid]]`. The threads write pairwise distinct cells, so
the parallel scatter is embedded as a sequential fold over `tid`. -/
def gpu_copy_to_dense (data : List Int) (mask : List Nat) (slots : List Nat)
    (out : List Int) : List Int :=
  (List.range data.length).foldl
    (fun o tid =>
      if gpu_mask_get mask tid = 1 then o.set (slots.getD tid 0) (data.getD tid 0) else o)
    out

/-- Host function `copy_to_dense` (cudautils.py lines 131-149), path
with `out=None`: run the rank kernel, read `sz := slots[-1] + 1` back,
allocate a fresh output of `sz` cells (uninitialized device memory,
modelled as zeros), and gather. Returns `(sz, out)`. -/
def copy_to_dense (data : List Int) (mask : List Nat) : Nat × List Int :=
  let slots := gpu_mask_assign_slot mask data.length
  let sz := slots.getLastD 0 + 1
  let out := gpu_copy_to_dense data mask slots (List.replicate sz 0)
  (sz, out)

/-- Host function `copy_to_dense` (cudautils.py lines 131-149), path
with a caller-supplied output buffer: the check at lines 144-147 raises
`ValueError` when `sz >= out.size`; `none` models that error. -/
def copy_to_dense_out (data : List Int) (mask : List Nat) (out : List Int) :
    Option (Nat × List Int) :=
  let slots := gpu_mask_assign_slot mask data.length
  let sz := slots.getLastD 0 + 1
  if out.length ≤ sz then none
  else some (sz, gpu_copy_to_dense data mask slots out)

/-- Host function `fillna` (cudautils.py lines 157-171): the output is
a copy of `data`, then kernel `gpu_fill_masked` (lines 157-163)
overwrites every cell whose validity bit is 0 with `value`. The copy
followed by the elementwise overwrite is embedded as one indexed map. -/
def fillna (data : List Int) (mask : List Nat) (value : Int) : List Int :=
  (List.range data.length).map
    (fun tid => if gpu_mask_get mask tid = 0 then value else data.getD tid 0)

/-
Reduction engine (cudautils.py lines 196-237). `cuda.reduce` is an
external numba primitive, out of the sources; section 4.4 of the spec
fixes its contract. Device buffers live in an explicit store so that
the duplication / in-place behaviour of `_run_reduction` is observable.
-/

/-- Device memory: the list of live device buffers, addressed by
allocation index. -/
structure DeviceMem where
  bufs : List (List Int)

/-- Content of buffer `n` (empty for a dangling index). -/
def DeviceMem.read (m : DeviceMem) (n : Nat) : List Int :=
  m.bufs.getD n []

/-- Overwrite buffer `n` in place. -/
def DeviceMem.write (m : DeviceMem) (n : Nat) (b : List Int) : DeviceMem :=
  ⟨m.bufs.set n b⟩

/-- Allocate a fresh buffer holding `b`; returns the new store and the
index of the new buffer. -/
def DeviceMem.alloc (m : DeviceMem) (b : List Int) : DeviceMem × Nat :=
  (⟨m.bufs ++ [b]⟩, m.bufs.length)

/-- Host function `copy_array` (cudautils.py lines 36-41) with
`out=None`: allocate a like-sized fresh device buffer and copy the
source buffer into it. -/
def copy_array (m : DeviceMem) (n : Nat) : DeviceMem × Nat :=
  m.alloc (m.read n)

/-- Modelled from the spec: the numba primitive `cuda.reduce` (used at
cudautils.py lines 196-198) is external to the sources. Section 4.4
specifies its contract as `fold(op, data, init)` computed by a
multi-pass parallel reduction whose order is immaterial because `op` is
associative and commutative; section 2/4.4 also record that the pass
consumes (overwrites) the buffer it reduces, writing partial results
into it — modelled as the final value landing in cell 0. Returns the
scalar result and the consumed buffer contents. -/
def cuda_reduce (op : Int → Int → Int) (buf : List Int) (init : Int) :
    Int × List Int :=
  let r := buf.foldl op init
  (r, buf.set 0 r)

/-- Host function `_run_reduction` (cudautils.py lines 201-207): unless
`inplace` is set, the input buffer is first duplicated and the
reduction consumes the duplicate; with `inplace` set the input buffer
itself is consumed. -/
def _run_reduction (op : Int → Int → Int) (init : Int) (m : DeviceMem) (n : Nat)
    (inplace : Bool) : Int × DeviceMem :=
  let sm := if inplace then (m, n) else copy_array m n
  let buf := (sm.1).read sm.2
  let r := cuda_reduce op buf init
  (r.1, (sm.1).write sm.2 r.2)

/-- `compute_sum` (cudautils.py line 210): `_run_reduction` over `+`
with `init = 0`. -/
def compute_sum (m : DeviceMem) (n : Nat) (inplace : Bool) : Int × DeviceMem :=
  _run_reduction (fun x y => x + y) 0 m n inplace

/-- `compute_min` (cudautils.py line 211): `_run_reduction` over `min`;
`init` keeps the default value 0 of `_run_reduction`. -/
def compute_min (m : DeviceMem) (n : Nat) (inplace : Bool) : Int × DeviceMem :=
  _run_reduction min 0 m n inplace

/-- `compute_max` (cudautils.py line 212): `_run_reduction` over `max`;
`init` keeps the default value 0 of `_run_reduction`. -/
def compute_max (m : DeviceMem) (n : Nat) (inplace : Bool) : Int × DeviceMem :=
  _run_reduction max 0 m n inplace

/-- Host function `compute_mean` (cudautils.py lines 215-219):
`compute_sum(arr, inplace) / arr.size`, the division exact over ℚ. -/
def compute_mean (m : DeviceMem) (n : Nat) (inplace : Bool) : ℚ × DeviceMem :=
  let r := compute_sum m n inplace
  (((r.1 : ℚ) / ((m.read n).length : ℚ)), r.2)

/-
Bounded unique-value extractor (cudautils.py lines 240-357).
-/

/-- Constant `MAX_FAST_UNIQUE_K` (cudautils.py line 264). -/
def MAX_FAST_UNIQUE_K : Nat := 2 * 1024

/-- Device helper `gpu_unique_set_insert` (cudautils.py lines 240-261).
The 2048-slot shared array `vset` is a total map from slot index to
value (uninitialized cells read 0); `sz` is the current set size. A
linear scan of the first `sz` slots looks for `val`; if absent, the
value goes into slot `sz` when that slot exists (`sz < 2048`, matching
the source where the write index `i` equals `sz`, also for `sz = 0`),
else the insert reports out-of-space, `none` here standing for the
sentinel -1. -/
def gpu_unique_set_insert (vset : Nat → Int) (sz : Nat) (val : Int) :
    Option ((Nat → Int) × Nat) :=
  if val ∈ (List.range sz).map vset then some (vset, sz)
  else if sz < MAX_FAST_UNIQUE_K then some (Function.update vset sz val, sz + 1)
  else none

/-- One insertion step of thread 0 in `gpu_unique_k` (cudautils.py
lines 312-318): a failed insert sets the size to the overflow sentinel
`sm_mem_size + 1`. -/
def insertStep (smSize : Nat) (st : (Nat → Int) × Nat) (val : Int) :
    (Nat → Int) × Nat :=
  match gpu_unique_set_insert st.1 st.2 val with
  | some st1 => st1
  | none => (st.1, smSize + 1)

/-- Serial consumption of one loaded chunk by thread 0 (cudautils.py
lines 311-319). -/
def processChunk (smSize : Nat) (st : (Nat → Int) × Nat) (c : List Int) :
    (Nat → Int) × Nat :=
  c.foldl (insertStep smSize) st

/-- The chunked while-loop of `gpu_unique_k` (cudautils.py lines
302-324): chunks are consumed in order while `vset_size < sm_mem_size`
holds and input remains. -/
def uniqueKLoop (smSize : Nat) : List (List Int) → ((Nat → Int) × Nat) →
    (Nat → Int) × Nat
  | [], st => st
  | c :: cs, st =>
    if st.2 < smSize then uniqueKLoop smSize cs (processChunk smSize st c) else st

/-- Fuel-driven worker for `chunksOf`; the fuel starts at the list
length, which bounds the number of chunks whenever `0 < n`. -/
def chunksOfAux (n : Nat) : Nat → List Int → List (List Int)
  | 0, _ => []
  | _ + 1, [] => []
  | fuel + 1, x :: xs => (x :: xs).take n :: chunksOfAux n fuel ((x :: xs).drop n)

/-- Split a list into consecutive chunks of `n` elements, the kernel
block width being 64 at the launch site (cudautils.py line 346). -/
def chunksOf (n : Nat) (l : List Int) : List (List Int) :=
  chunksOfAux n l.length l

/-- Kernel `gpu_unique_k` (cudautils.py lines 285-333), embedded for
its single 64-thread block: the loop fills the shared set, then the
epilogue (lines 327-333) either publishes the first `vset_size` slots
with `outsz = vset_size`, or writes the sentinel `outsz = -1` when the
final size exceeds `sm_mem_size = min k MAX_FAST_UNIQUE_K`. Returns
the value read back from `outsz_ptr` and the cells written to `out`. -/
def gpu_unique_k (arr : List Int) (k : Nat) : Int × List Int :=
  let smSize := min k MAX_FAST_UNIQUE_K
  let st := uniqueKLoop smSize (chunksOf 64 arr) (fun _ => 0, 0)
  if st.2 ≤ smSize then ((st.2 : Int), (List.range st.2).map st.1)
  else (-1, [])

/-- Errors raised by `UniqueK.run`: `capability` for the
`NotImplementedError` at line 341, `count` for the `ValueError` at
line 350. -/
inductive UKErr where
  | capability
  | count
deriving DecidableEq

/-- Method `UniqueK.run` (cudautils.py lines 339-353): reject
`k >= MAX_FAST_UNIQUE_K` before launching; launch the kernel; a
negative readback raises the count error, otherwise the host slices
the first `unique_ct` cells of the output buffer — exactly the cells
the kernel wrote. -/
def UniqueK_run (arr : List Int) (k : Nat) : Except UKErr (List Int) :=
  if MAX_FAST_UNIQUE_K ≤ k then Except.error UKErr.capability
  else
    let r := gpu_unique_k arr k
    if r.1 < 0 then Except.error UKErr.count else Except.ok r.2

/-- Host function `compute_unique_k` (cudautils.py lines 356-357). -/
def compute_unique_k (arr : List Int) (k : Nat) : Except UKErr (List Int) :=
  UniqueK_run arr k

/-
Basic facts about the bitmask codec.
-/

theorem gpu_mask_get_le_one (mask : List Nat) (pos : Nat) :
    gpu_mask_get mask pos ≤ 1 :=
  Nat.and_le_right

theorem gpu_mask_get_eq_zero_iff (mask : List Nat) (pos : Nat) :
    gpu_mask_get mask pos = 0 ↔ ¬ gpu_mask_get mask pos = 1 := by
  have h := gpu_mask_get_le_one mask pos
  omega

/-- Claim C8: for every data array, mask and fill value, `fillna`
equals the data at every position whose validity bit is set and equals
the fill value at every position whose validity bit is unset (the
output also keeps the length of the data). -/
theorem fillna_spec (data : List Int) (mask : List Nat) (v : Int) :
    (fillna data mask v).length = data.length ∧
    ∀ i, i < data.length →
      (fillna data mask v).getD i 0 =
        if gpu_mask_get mask i = 1 then data.getD i 0 else v := by
  constructor
  · simp [fillna]
  · intro i hi
    have h1 := gpu_mask_get_le_one mask i
    simp only [fillna, List.getD_eq_getElem?_getD, List.getElem?_map,
      List.getElem?_range hi, Option.map_some, Option.getD_some]
    rcases Nat.le_one_iff_eq_zero_or_eq_one.mp h1 with h | h <;>
      simp [h, List.getD_eq_getElem?_getD]

/-- Witness for C8 at `data = [1,2,3]`, mask word 5 (bits 1,0,1),
fill value 9, position 1 (an invalid position). -/
theorem fillna_spec_witness :
    (fillna [1, 2, 3] [5] 9).getD 1 0 =
      if gpu_mask_get [5] 1 = 1 then ([1, 2, 3] : List Int).getD 1 0 else 9 :=
  (fillna_spec [1, 2, 3] [5] 9).2 1 (by decide)

/-
Reduction engine: scratch duplication and the seeded fold.
-/

theorem _run_reduction_not_inplace (op : Int → Int → Int) (init : Int)
    (m : DeviceMem) (n : Nat) (h : n < m.bufs.length) :
    (_run_reduction op init m n false).1 = (m.read n).foldl op init ∧
    ((_run_reduction op init m n false).2).read n = m.read n := by
  have hne : n ≠ m.bufs.length := Nat.ne_of_lt h
  constructor
  · simp [_run_reduction, copy_array, DeviceMem.alloc, DeviceMem.read,
      cuda_reduce, List.getD_eq_getElem?_getD, List.getElem?_concat_length]
  · simp [_run_reduction, copy_array, DeviceMem.alloc, DeviceMem.read,
      DeviceMem.write, cuda_reduce, List.getD_eq_getElem?_getD,
      List.getElem?_set_ne hne, List.getElem?_append_left h]

/-- Claim C9: with the in-place flag unset (the default), `mean` and
the underlying sum/min/max reductions leave the input buffer unchanged:
the input is first duplicated into a scratch buffer and only the
scratch is consumed. -/
theorem reductions_not_inplace_preserve_input (m : DeviceMem) (n : Nat)
    (h : n < m.bufs.length) :
    ((compute_sum m n false).2).read n = m.read n ∧
    ((compute_min m n false).2).read n = m.read n ∧
    ((compute_max m n false).2).read n = m.read n ∧
    ((compute_mean m n false).2).read n = m.read n :=
  ⟨(_run_reduction_not_inplace _ 0 m n h).2,
   (_run_reduction_not_inplace _ 0 m n h).2,
   (_run_reduction_not_inplace _ 0 m n h).2,
   (_run_reduction_not_inplace _ 0 m n h).2⟩

/-- Witness for C9: a store holding the single buffer `[4, 6]`. -/
theorem reductions_not_inplace_witness :
    ((compute_sum ⟨[[4, 6]]⟩ 0 false).2).read 0 = DeviceMem.read ⟨[[4, 6]]⟩ 0 ∧
    ((compute_min ⟨[[4, 6]]⟩ 0 false).2).read 0 = DeviceMem.read ⟨[[4, 6]]⟩ 0 ∧
    ((compute_max ⟨[[4, 6]]⟩ 0 false).2).read 0 = DeviceMem.read ⟨[[4, 6]]⟩ 0 ∧
    ((compute_mean ⟨[[4, 6]]⟩ 0 false).2).read 0 = DeviceMem.read ⟨[[4, 6]]⟩ 0 :=
  reductions_not_inplace_preserve_input ⟨[[4, 6]]⟩ 0 (by decide)

/-- Claim C4, corrected: over a one-element buffer `[x]`, `sum` does
return `x`, but `min` and `max` are seeded with the default initial
accumulator 0 of `_run_reduction`, so they return `min 0 x` and
`max 0 x` instead of `x`. -/
theorem reduction_singleton_amended (x : Int) :
    (compute_sum ⟨[[x]]⟩ 0 false).1 = x ∧
    (compute_min ⟨[[x]]⟩ 0 false).1 = min 0 x ∧
    (compute_max ⟨[[x]]⟩ 0 false).1 = max 0 x := by
  refine ⟨?_, ?_, ?_⟩ <;>
    simp [compute_sum, compute_min, compute_max, _run_reduction, copy_array,
      DeviceMem.alloc, DeviceMem.read, cuda_reduce, List.getD_eq_getElem?_getD]

/-- Counterexample to C4 as stated: `min` over the one-element buffer
`[5]` returns 0, not 5. -/
theorem compute_min_singleton_counterexample :
    (compute_min ⟨[[5]]⟩ 0 false).1 = 0 ∧ ((0 : Int) ≠ 5) :=
  ⟨rfl, by decide⟩

/-
Compaction host wrapper: the count read back from the rank array.
-/

/-- Claim C1 fails on the code: `copy_to_dense` derives the count as
`slots[-1] + 1`, which is wrong whenever the last element is invalid.
For `data = [7]` with the all-invalid mask word 0 the claim demands
`(0, [])`, but the code returns count 1 together with a 1-cell dense
buffer that the gather never writes (its uninitialized cell reads 0
here), even though the mask has no set bit. -/
theorem copy_to_dense_all_invalid_miscount :
    copy_to_dense [7] [0] = (1, [0]) ∧ validCount [0] 1 = 0 :=
  ⟨rfl, by decide⟩

/-- Claim C2 fails on the code: the check `sz >= out.size` rejects an
exactly-fitting buffer. For `data = [5]` with mask word 1 the true
valid count is 1 and the supplied output buffer `[0]` has capacity 1,
yet `copy_to_dense` raises the size error (`none`). -/
theorem copy_to_dense_exact_fit_rejected :
    copy_to_dense_out [5] [1] [0] = none ∧
    validCount [1] 1 = 1 ∧ ([0] : List Int).length = 1 :=
  ⟨rfl, by decide, rfl⟩

/-
Stride-mask generator: bit-level characterization.
-/

theorem getD_map_range {α : Type} (f : Nat → α) (d : α) (n i : Nat) (h : i < n) :
    ((List.range n).map f).getD i d = f i := by
  simp [List.getD_eq_getElem?_getD, List.getElem?_map, List.getElem?_range h]

theorem testBit_foldl_or (g : Nat → Nat) (hg : ∀ s, g s ≤ 1) (n b acc : Nat) :
    (((List.range n).foldl (fun v s => v ||| (g s <<< s)) acc)).testBit b =
      (acc.testBit b || (decide (b < n) && decide (g b = 1))) := by
  induction n generalizing acc with
  | zero => simp
  | succ n ih =>
    rw [List.range_succ, List.foldl_append]
    simp only [List.foldl_cons, List.foldl_nil]
    rw [Nat.testBit_or, ih, Nat.testBit_shiftLeft]
    rcases Nat.lt_trichotomy b n with hb | hb | hb
    · have h1 : ¬ b ≥ n := by omega
      have h2 : b < n + 1 := by omega
      simp [hb, h1, h2]
    · subst hb
      have h1 : ¬ b < b := by omega
      have h2 : b < b + 1 := by omega
      have h3 : b - b = 0 := by omega
      rcases Nat.le_one_iff_eq_zero_or_eq_one.mp (hg b) with h | h <;>
        simp [h1, h2, h3, h]
    · have h1 : ¬ b < n := by omega
      have h2 : ¬ b < n + 1 := by omega
      have h3 : (g n).testBit (b - n) = false := by
        refine Nat.testBit_lt_two_pow (Nat.lt_of_le_of_lt (hg n) ?_)
        calc (1 : Nat) < 2 ^ 1 := by omega
          _ ≤ 2 ^ (b - n) := Nat.pow_le_pow_right (by omega) (by omega)
      simp [h1, h2, h3]

theorem gpu_set_mask_from_stride_word_testBit (stride tid b : Nat)
    (hb : b < mask_bitsize) :
    (gpu_set_mask_from_stride_word stride tid).testBit b =
      decide ((tid * mask_bitsize + b) % stride = 0) := by
  have hg : ∀ s, (if (tid * mask_bitsize + s) % stride = 0 then (1 : Nat) else 0) ≤ 1 := by
    intro s
    split <;> omega
  rw [gpu_set_mask_from_stride_word, testBit_foldl_or _ hg]
  by_cases hc : (tid * mask_bitsize + b) % stride = 0 <;> simp [hb, hc]

theorem gpu_mask_get_eq_one_iff_testBit (mask : List Nat) (pos : Nat) :
    gpu_mask_get mask pos = 1 ↔
      (mask.getD (pos / mask_bitsize) 0).testBit (pos % mask_bitsize) = true := by
  rw [gpu_mask_get, Nat.and_one_is_mod, Nat.testBit_to_div_mod,
    Nat.shiftRight_eq_div_pow]
  simp

/-- Bit `i` of the generated stride mask, for any position covered by
the mask words. -/
theorem set_mask_from_stride_bit (nwords S i : Nat)
    (hi : i < mask_bitsize * nwords) :
    (gpu_mask_get (set_mask_from_stride nwords S) i = 1 ↔ i % S = 0) := by
  have hw : mask_bitsize = 32 := rfl
  have hdiv : i / mask_bitsize < nwords := by
    rw [hw] at hi ⊢
    omega
  have hmod : i % mask_bitsize < mask_bitsize := by
    rw [hw]
    omega
  rw [gpu_mask_get_eq_one_iff_testBit, set_mask_from_stride,
    getD_map_range _ _ _ _ hdiv,
    gpu_set_mask_from_stride_word_testBit _ _ _ hmod]
  have hsplit : i / mask_bitsize * mask_bitsize + i % mask_bitsize = i := by
    rw [hw]
    omega
  rw [hsplit]
  simp

theorem ceil_div_succ (S N : Nat) (hS : 1 ≤ S) :
    (N + 1 + S - 1) / S = (N + S - 1) / S + (if N % S = 0 then 1 else 0) := by
  obtain ⟨q, r, hr, rfl⟩ : ∃ q r, r < S ∧ N = S * q + r :=
    ⟨N / S, N % S, Nat.mod_lt _ (by omega), (Nat.div_add_mod N S).symm⟩
  have hmod : (S * q + r) % S = r := by
    rw [Nat.mul_add_mod, Nat.mod_eq_of_lt hr]
  rw [hmod]
  by_cases h0 : r = 0
  · subst h0
    rw [show S * q + 0 + 1 + S - 1 = S * q + S by omega,
      show S * q + 0 + S - 1 = S * q + (S - 1) by omega,
      Nat.mul_add_div (by omega), Nat.mul_add_div (by omega),
      Nat.div_self (by omega), Nat.div_eq_of_lt (by omega)]
    simp
  · rw [show S * q + r + 1 + S - 1 = S * q + (r + S) by omega,
      show S * q + r + S - 1 = S * q + ((r - 1) + S) by omega,
      Nat.mul_add_div (by omega), Nat.mul_add_div (by omega),
      Nat.add_div_right _ (by omega), Nat.add_div_right _ (by omega),
      Nat.div_eq_of_lt (show r < S by omega),
      Nat.div_eq_of_lt (show r - 1 < S by omega)]
    simp [h0]

/-- Multiples of `S` among `0 .. N-1` number exactly `ceil(N / S)`. -/
theorem length_filter_range_mod (S : Nat) (hS : 1 ≤ S) (N : Nat) :
    ((List.range N).filter (fun i => i % S = 0)).length = (N + S - 1) / S := by
  induction N with
  | zero =>
    rw [show 0 + S - 1 = S - 1 by omega,
      Nat.div_eq_of_lt (show S - 1 < S by omega)]
    simp
  | succ N ih =>
    rw [List.range_succ, List.filter_append, List.length_append, ih,
      ceil_div_succ S N hS]
    by_cases h0 : N % S = 0 <;> simp [List.filter, h0]

/-- Claim C7: after `set_mask_from_stride` with stride `S ≥ 1` over a
mask of `nwords` words, bit `i` is set iff `i mod S = 0`, and the
number of set bits among the first `N` bit positions (for any `N`
covered by the mask) equals `ceil(N / S) = (N + S - 1) / S`. -/
theorem set_mask_from_stride_spec (nwords S N : Nat) (hS : 1 ≤ S)
    (hN : N ≤ mask_bitsize * nwords) :
    (∀ i, i < mask_bitsize * nwords →
       (gpu_mask_get (set_mask_from_stride nwords S) i = 1 ↔ i % S = 0)) ∧
    validCount (set_mask_from_stride nwords S) N = (N + S - 1) / S := by
  refine ⟨fun i hi => set_mask_from_stride_bit nwords S i hi, ?_⟩
  rw [validCount, ← length_filter_range_mod S hS N]
  congr 1
  refine List.filter_congr ?_
  intro i hi
  have hiN : i < mask_bitsize * nwords := by
    have := List.mem_range.mp hi
    omega
  simp [set_mask_from_stride_bit nwords S i hiN]

/-- Witness for C7: two mask words, stride 3, first 64 bit positions:
22 set bits, and bit 6 set (6 mod 3 = 0). -/
theorem set_mask_from_stride_spec_witness :
    (gpu_mask_get (set_mask_from_stride 2 3) 6 = 1 ↔ 6 % 3 = 0) ∧
    validCount (set_mask_from_stride 2 3) 64 = (64 + 3 - 1) / 3 :=
  ⟨(set_mask_from_stride_spec 2 3 64 (by decide) (by decide)).1 6 (by decide),
   (set_mask_from_stride_spec 2 3 64 (by decide) (by decide)).2⟩

/-
Rank assignment: the chunked exclusive prefix sum equals the count of
valid elements below each index.
-/

/-- Sum of the validity bits at positions `a .. a+p-1`. -/
def bitSum (mask : List Nat) (a p : Nat) : Nat :=
  ((List.range p).map (fun t => gpu_mask_get mask (a + t))).sum

theorem gpu_prefixsum_spec (xs : List Nat) (acc : Nat) :
    gpu_prefixsum xs acc =
      ((List.range xs.length).map (fun i => acc + (xs.take i).sum), acc + xs.sum) := by
  induction xs generalizing acc with
  | nil => simp [gpu_prefixsum]
  | cons x xs ih =>
    rw [gpu_prefixsum]
    simp only [ih (acc + x), List.length_cons, List.range_succ_eq_map,
      List.map_cons, List.map_map, List.sum_cons]
    refine Prod.ext ?_ (by dsimp; omega)
    dsimp
    refine congrArg (acc :: ·) ?_
    refine List.map_congr_left ?_
    intro i _
    simp only [Function.comp_apply, List.take_succ_cons, List.sum_cons]
    omega

theorem bitSum_add (mask : List Nat) (a m p : Nat) :
    bitSum mask a (m + p) = bitSum mask a m + bitSum mask (a + m) p := by
  rw [bitSum, List.range_add, List.map_append, List.sum_append, bitSum, bitSum,
    List.map_map]
  refine congrArg (_ + ·) ?_
  refine congrArg List.sum ?_
  refine List.map_congr_left ?_
  intro t _
  simp only [Function.comp_apply]
  refine congrArg (gpu_mask_get mask) ?_
  omega

theorem chunk_bits_length (mask : List Nat) (size base : Nat) :
    (chunk_bits mask size base).length = mask_bitsize := by
  simp [chunk_bits]

theorem chunk_bits_take_sum (mask : List Nat) (size base i : Nat)
    (hi : i ≤ mask_bitsize) (hle : i ≤ size - base) :
    ((chunk_bits mask size base).take i).sum = bitSum mask base i := by
  rw [chunk_bits, ← List.map_take, List.take_range, Nat.min_eq_left hi, bitSum]
  refine congrArg List.sum ?_
  refine List.map_congr_left ?_
  intro t ht
  have htl : t < i := List.mem_range.mp ht
  rw [if_pos (by omega)]

theorem assign_slots_aux_spec (mask : List Nat) (size : Nat) :
    ∀ (fuel base offset : Nat), size ≤ base + fuel * 32 →
      assign_slots_aux mask size fuel base offset =
        (List.range (size - base)).map (fun p => offset + bitSum mask base p) := by
  intro fuel
  induction fuel with
  | zero =>
    intro base offset h
    rw [show size - base = 0 by omega]
    simp [assign_slots_aux]
  | succ fuel ih =>
    intro base offset h
    rw [assign_slots_aux]
    have hw : mask_bitsize = 32 := rfl
    have hlen : (gpu_prefixsum (chunk_bits mask size base) offset).1 =
        (List.range 32).map
          (fun i => offset + ((chunk_bits mask size base).take i).sum) := by
      rw [gpu_prefixsum_spec, chunk_bits_length, hw]
    by_cases hm : size - base ≤ 32
    · have htail : assign_slots_aux mask size fuel (base + 32)
          (gpu_prefixsum (chunk_bits mask size base) offset).2 = [] := by
        rw [ih (base + 32) _ (by omega), show size - (base + 32) = 0 by omega]
        simp
      rw [htail, List.append_nil, hlen, ← List.map_take, List.take_range,
        Nat.min_eq_left hm]
      refine List.map_congr_left ?_
      intro p hp
      have hpm : p < size - base := List.mem_range.mp hp
      rw [chunk_bits_take_sum mask size base p (by omega) (by omega)]
    · have hsum : (gpu_prefixsum (chunk_bits mask size base) offset).2 =
          offset + bitSum mask base 32 := by
        rw [gpu_prefixsum_spec,
          show (chunk_bits mask size base).sum =
            ((chunk_bits mask size base).take 32).sum from by
            rw [List.take_of_length_le (by rw [chunk_bits_length, hw])],
          chunk_bits_take_sum mask size base 32 (by rw [hw]) (by omega)]
      rw [hlen, List.take_of_length_le (by simp; omega), hsum,
        ih (base + 32) _ (by omega),
        show size - base = 32 + (size - base - 32) by omega, List.range_add,
        List.map_append, List.map_map]
      refine congrArg₂ (· ++ ·) ?_ ?_
      · refine List.map_congr_left ?_
        intro p hp
        have hp32 : p < 32 := List.mem_range.mp hp
        rw [chunk_bits_take_sum mask size base p (by omega) (by omega)]
      · refine List.map_congr_left ?_
        intro p _
        simp only [Function.comp_apply]
        rw [bitSum_add mask base 32 p]
        omega

theorem gpu_mask_assign_slot_eq (mask : List Nat) (size : Nat) :
    gpu_mask_assign_slot mask size =
      (List.range size).map (fun p => bitSum mask 0 p) := by
  rw [gpu_mask_assign_slot, assign_slots_aux_spec mask size _ 0 0 (by omega)]
  simp

theorem bitSum_zero_eq_validCount (mask : List Nat) (n : Nat) :
    bitSum mask 0 n = validCount mask n := by
  induction n with
  | zero => simp [bitSum, validCount]
  | succ n ih =>
    rw [bitSum, validCount, List.range_succ, List.map_append, List.sum_append,
      List.filter_append, List.length_append]
    rw [bitSum, validCount] at ih
    rw [ih]
    have h1 := gpu_mask_get_le_one mask n
    rcases Nat.le_one_iff_eq_zero_or_eq_one.mp h1 with h | h <;>
      simp [h, List.filter]

theorem validCount_mono (mask : List Nat) {i j : Nat} (h : i ≤ j) :
    validCount mask i ≤ validCount mask j := by
  rw [← bitSum_zero_eq_validCount, ← bitSum_zero_eq_validCount,
    show j = i + (j - i) by omega, bitSum_add]
  omega

/-- Claim C6: after the rank-assignment kernel, the slot entry at every
index `i < size` (valid or not) equals the number of indices `j < i`
whose validity bit is set, and consequently the slot array is
monotonically non-decreasing. -/
theorem gpu_mask_assign_slot_spec (mask : List Nat) (size : Nat) :
    (∀ i, i < size →
       (gpu_mask_assign_slot mask size).getD i 0 = validCount mask i) ∧
    (∀ i j, i ≤ j → j < size →
       (gpu_mask_assign_slot mask size).getD i 0 ≤
         (gpu_mask_assign_slot mask size).getD j 0) := by
  have hget : ∀ i, i < size →
      (gpu_mask_assign_slot mask size).getD i 0 = validCount mask i := by
    intro i hi
    rw [gpu_mask_assign_slot_eq, getD_map_range _ _ _ _ hi,
      bitSum_zero_eq_validCount]
  refine ⟨hget, fun i j hij hj => ?_⟩
  rw [hget i (Nat.lt_of_le_of_lt hij hj), hget j hj]
  exact validCount_mono mask hij

/-- Witness for C6 at mask word 21 (bits 1,0,1,0,1) over 5 elements. -/
theorem gpu_mask_assign_slot_spec_witness :
    (gpu_mask_assign_slot [21] 5).getD 4 0 = validCount [21] 4 ∧
    (gpu_mask_assign_slot [21] 5).getD 1 0 ≤
      (gpu_mask_assign_slot [21] 5).getD 4 0 :=
  ⟨(gpu_mask_assign_slot_spec [21] 5).1 4 (by decide),
   (gpu_mask_assign_slot_spec [21] 5).2 1 4 (by decide) (by decide)⟩

/-
Unique-value extractor: a pure list view of the shared-memory set.
-/

/-- Pure view of one deduplicating insertion: append the value when it
is absent. -/
def pureInsert (L : List Int) (v : Int) : List Int :=
  if v ∈ L then L else L ++ [v]

/-- The set contents after serially inserting every element of `p`
into an initially empty set of unbounded capacity. -/
def insertedRun (p : List Int) : List Int :=
  p.foldl pureInsert []

theorem length_le_foldl_pureInsert (c : List Int) (L : List Int) :
    L.length ≤ (c.foldl pureInsert L).length := by
  induction c generalizing L with
  | nil => simp
  | cons v rest ih =>
    refine Nat.le_trans ?_ (ih (pureInsert L v))
    rw [pureInsert]
    split <;> simp

theorem mem_foldl_pureInsert (c : List Int) (L : List Int) (x : Int) :
    x ∈ c.foldl pureInsert L ↔ x ∈ L ∨ x ∈ c := by
  induction c generalizing L with
  | nil => simp
  | cons v rest ih =>
    rw [List.foldl_cons, ih, pureInsert]
    split
    · rename_i hv
      simp only [List.mem_cons]
      constructor
      · rintro (h | h)
        · exact Or.inl h
        · exact Or.inr (Or.inr h)
      · rintro (h | rfl | h)
        · exact Or.inl h
        · exact Or.inl hv
        · exact Or.inr h
    · simp [or_assoc]

theorem nodup_foldl_pureInsert (c : List Int) (L : List Int) (h : L.Nodup) :
    (c.foldl pureInsert L).Nodup := by
  induction c generalizing L with
  | nil => simpa
  | cons v rest ih =>
    rw [List.foldl_cons]
    refine ih _ ?_
    rw [pureInsert]
    split
    · exact h
    · rename_i hv
      simp [List.nodup_append, h, hv]

theorem insertedRun_nodup (p : List Int) : (insertedRun p).Nodup :=
  nodup_foldl_pureInsert p [] List.nodup_nil

theorem mem_insertedRun (p : List Int) (x : Int) :
    x ∈ insertedRun p ↔ x ∈ p := by
  rw [insertedRun, mem_foldl_pureInsert]
  simp

theorem insertedRun_toFinset (p : List Int) :
    (insertedRun p).toFinset = p.toFinset := by
  ext x
  simp [List.mem_toFinset, mem_insertedRun]

theorem insertedRun_length (p : List Int) :
    (insertedRun p).length = p.toFinset.card := by
  rw [← insertedRun_toFinset, List.toFinset_card_of_nodup (insertedRun_nodup p)]

theorem insertStep_spec (smSize : Nat) (st : (Nat → Int) × Nat) (L : List Int)
    (v : Int) (hL : (List.range st.2).map st.1 = L)
    (hcap : (pureInsert L v).length ≤ MAX_FAST_UNIQUE_K) :
    (List.range (insertStep smSize st v).2).map (insertStep smSize st v).1 =
      pureInsert L v := by
  have hlen : L.length = st.2 := by
    rw [← hL]
    simp
  simp only [insertStep, gpu_unique_set_insert]
  by_cases hv : v ∈ L
  · rw [hL, if_pos hv]
    dsimp
    rw [hL, pureInsert, if_pos hv]
  · rw [hL, if_neg hv]
    have hsz : st.2 < MAX_FAST_UNIQUE_K := by
      rw [pureInsert, if_neg hv, List.length_append, List.length_singleton] at hcap
      omega
    rw [if_pos hsz]
    dsimp
    rw [List.range_succ, List.map_append, pureInsert, if_neg hv]
    refine congrArg₂ (· ++ ·) ?_ ?_
    · rw [← hL]
      refine List.map_congr_left ?_
      intro i hi
      have hilt : i < st.2 := List.mem_range.mp hi
      rw [Function.update_noteq (by omega)]
    · simp [Function.update_same]

theorem processChunk_spec (smSize : Nat) (c : List Int) :
    ∀ (st : (Nat → Int) × Nat) (L : List Int),
      (List.range st.2).map st.1 = L →
      (c.foldl pureInsert L).length ≤ MAX_FAST_UNIQUE_K →
      (List.range (processChunk smSize st c).2).map
        (processChunk smSize st c).1 = c.foldl pureInsert L := by
  induction c with
  | nil =>
    intro st L hL _
    simpa [processChunk]
  | cons v rest ih =>
    intro st L hL hcap
    have hcap1 : (pureInsert L v).length ≤ MAX_FAST_UNIQUE_K := by
      refine Nat.le_trans ?_ hcap
      rw [List.foldl_cons]
      exact length_le_foldl_pureInsert rest (pureInsert L v)
    have h1 := insertStep_spec smSize st L v hL hcap1
    have hpc : processChunk smSize st (v :: rest) =
        processChunk smSize (insertStep smSize st v) rest := by
      simp [processChunk]
    rw [hpc, List.foldl_cons]
    refine ih _ _ h1 ?_
    rw [← List.foldl_cons]
    exact hcap

theorem uniqueKLoop_spec (smSize : Nat) (cs : List (List Int)) :
    ∀ (st : (Nat → Int) × Nat) (L : List Int),
      (List.range st.2).map st.1 = L →
      ((cs.flatten).foldl pureInsert L).length ≤ MAX_FAST_UNIQUE_K →
      ∃ cs1 cs2, cs = cs1 ++ cs2 ∧
        (List.range (uniqueKLoop smSize cs st).2).map
          (uniqueKLoop smSize cs st).1 = (cs1.flatten).foldl pureInsert L ∧
        (cs2 = [] ∨ smSize ≤ (uniqueKLoop smSize cs st).2) := by
  induction cs with
  | nil =>
    intro st L hL _
    exact ⟨[], [], rfl, by simpa [uniqueKLoop], Or.inl rfl⟩
  | cons c cs ih =>
    intro st L hL hcap
    rw [List.flatten_cons, List.foldl_append] at hcap
    rw [uniqueKLoop]
    by_cases hsz : st.2 < smSize
    · rw [if_pos hsz]
      have hcap1 : (c.foldl pureInsert L).length ≤ MAX_FAST_UNIQUE_K :=
        Nat.le_trans (length_le_foldl_pureInsert _ _) hcap
      have h1 := processChunk_spec smSize c st L hL hcap1
      obtain ⟨cs1, cs2, heq, hrep, hd⟩ :=
        ih (processChunk smSize st c) (c.foldl pureInsert L) h1 hcap
      refine ⟨c :: cs1, cs2, by rw [heq, List.cons_append], ?_, hd⟩
      rw [hrep, List.flatten_cons, List.foldl_append]
    · rw [if_neg hsz]
      exact ⟨[], c :: cs, rfl, by simpa, Or.inr (by omega)⟩

theorem chunksOfAux_flatten (n : Nat) (hn : 0 < n) :
    ∀ (fuel : Nat) (l : List Int), l.length ≤ fuel →
      (chunksOfAux n fuel l).flatten = l := by
  intro fuel
  induction fuel with
  | zero =>
    intro l h
    have : l = [] := List.eq_nil_of_length_eq_zero (by omega)
    subst this
    simp [chunksOfAux]
  | succ fuel ih =>
    intro l h
    match l with
    | [] => simp [chunksOfAux]
    | x :: xs =>
      rw [chunksOfAux, List.flatten_cons, ih _ (by
        simp only [List.length_drop, List.length_cons] at h ⊢
        omega)]
      exact List.take_append_drop n (x :: xs)

theorem chunksOf_flatten (n : Nat) (hn : 0 < n) (l : List Int) :
    (chunksOf n l).flatten = l :=
  chunksOfAux_flatten n hn l.length l (Nat.le_refl _)

theorem chunksOfAux_nil (n : Nat) (fuel : Nat) :
    chunksOfAux n fuel [] = [] := by
  cases fuel <;> rfl

theorem chunksOf_small (n : Nat) (l : List Int) (hne : l ≠ [])
    (hlen : l.length ≤ n) : chunksOf n l = [l] := by
  match l with
  | [] => exact absurd rfl hne
  | x :: xs =>
    rw [chunksOf, show (x :: xs).length = xs.length + 1 from rfl, chunksOfAux,
      List.take_of_length_le hlen, List.drop_eq_nil_of_le hlen, chunksOfAux_nil]

theorem gpu_unique_k_elems (arr : List Int) (k : Nat)
    (hk : k < MAX_FAST_UNIQUE_K) (hcard : arr.toFinset.card ≤ k) :
    ∃ out, gpu_unique_k arr k = ((out.length : Int), out) ∧ out.Nodup ∧
      out.length = arr.toFinset.card ∧ (∀ x, x ∈ out ↔ x ∈ arr) := by
  have hmin : min k MAX_FAST_UNIQUE_K = k := Nat.min_eq_left (Nat.le_of_lt hk)
  have hflat : (chunksOf 64 arr).flatten = arr := chunksOf_flatten 64 (by omega) arr
  have hcap : (((chunksOf 64 arr).flatten).foldl pureInsert []).length ≤
      MAX_FAST_UNIQUE_K := by
    rw [hflat, show arr.foldl pureInsert [] = insertedRun arr from rfl,
      insertedRun_length]
    omega
  obtain ⟨cs1, cs2, heq, hrep, hd⟩ :=
    uniqueKLoop_spec k (chunksOf 64 arr) (fun _ => (0 : Int), 0) [] (by simp) hcap
  simp only [gpu_unique_k, hmin]
  generalize hst : uniqueKLoop k (chunksOf 64 arr) (fun _ => (0 : Int), 0) = st
    at hrep hd ⊢
  have hins : cs1.flatten.foldl pureInsert [] = insertedRun cs1.flatten := rfl
  have hq : arr = cs1.flatten ++ cs2.flatten := by
    rw [← List.flatten_append, ← heq, hflat]
  have hsub : cs1.flatten.toFinset ⊆ arr.toFinset := by
    intro x hx
    rw [List.mem_toFinset] at hx ⊢
    rw [hq]
    exact List.mem_append_left _ hx
  have hlen2 : st.2 = ((List.range st.2).map st.1).length := by simp
  have h1 : ((List.range st.2).map st.1).length = cs1.flatten.toFinset.card := by
    rw [hrep, hins, insertedRun_length]
  have hsetq : cs1.flatten.toFinset = arr.toFinset := by
    rcases hd with hnil | hge
    · rw [hq, hnil]
      simp
    · exact Finset.eq_of_subset_of_card_le hsub (by omega)
  have hnd : ((List.range st.2).map st.1).Nodup := by
    rw [hrep, hins]
    exact insertedRun_nodup cs1.flatten
  have hmem : ∀ x, x ∈ (List.range st.2).map st.1 ↔ x ∈ arr := by
    intro x
    rw [hrep, hins, mem_insertedRun, ← List.mem_toFinset, hsetq, List.mem_toFinset]
  have hlen : ((List.range st.2).map st.1).length = arr.toFinset.card := by
    rw [h1, hsetq]
  refine ⟨(List.range st.2).map st.1, ?_, hnd, hlen, hmem⟩
  rw [if_pos (by omega)]
  refine Prod.ext ?_ rfl
  dsimp
  omega

/-- Claim C5: for every data array whose true number of distinct
values `u` satisfies `u ≤ k` (with `0 < k < MAX_FAST_UNIQUE_K`),
`compute_unique_k` succeeds and returns exactly `u` pairwise distinct
values, each occurring in the data, and covering every distinct value
of the data. -/
theorem compute_unique_k_correct (arr : List Int) (k : Nat) (hk0 : 0 < k)
    (hk : k < MAX_FAST_UNIQUE_K) (hu : arr.toFinset.card ≤ k) :
    ∃ out, compute_unique_k arr k = Except.ok out ∧ out.Nodup ∧
      out.length = arr.toFinset.card ∧ (∀ x, x ∈ out ↔ x ∈ arr) := by
  obtain ⟨out, hkk, hnd, hlen, hmem⟩ := gpu_unique_k_elems arr k hk hu
  refine ⟨out, ?_, hnd, hlen, hmem⟩
  rw [compute_unique_k, UniqueK_run, if_neg (by omega)]
  simp only [hkk]
  rw [if_neg (by omega)]

/-- Witness for C5: the concrete scenario `data = [1,1,1,1]`, `k = 5`
of the spec (a single unique value). -/
theorem compute_unique_k_correct_witness :
    ∃ out, compute_unique_k [1, 1, 1, 1] 5 = Except.ok out ∧ out.Nodup ∧
      out.length = ([1, 1, 1, 1] : List Int).toFinset.card ∧
      (∀ x, x ∈ out ↔ x ∈ ([1, 1, 1, 1] : List Int)) :=
  compute_unique_k_correct [1, 1, 1, 1] 5 (by decide) (by decide) (by decide)

/-- Claim C3, corrected: the capability error for
`k ≥ MAX_FAST_UNIQUE_K` is raised unconditionally before the kernel
runs, but the count error for `u > k` is only guaranteed when the
whole input fits in a single 64-element kernel chunk: for longer
inputs the while-loop exits as soon as the set holds `k` values at a
chunk boundary and the remaining elements are never examined. -/
theorem unique_k_errors_amended :
    (∀ (arr : List Int) (k : Nat), MAX_FAST_UNIQUE_K ≤ k →
       compute_unique_k arr k = Except.error UKErr.capability) ∧
    (∀ (arr : List Int) (k : Nat), 0 < k → k < MAX_FAST_UNIQUE_K →
       arr.length ≤ 64 → k < arr.toFinset.card →
       compute_unique_k arr k = Except.error UKErr.count) := by
  constructor
  · intro arr k hkk
    rw [compute_unique_k, UniqueK_run, if_pos hkk]
  · intro arr k hk0 hk hlen hcard
    have hne : arr ≠ [] := by
      intro h
      rw [h] at hcard
      simp at hcard
    have hch : chunksOf 64 arr = [arr] := chunksOf_small 64 arr hne hlen
    have hcap : (arr.foldl pureInsert []).length ≤ MAX_FAST_UNIQUE_K := by
      rw [show arr.foldl pureInsert [] = insertedRun arr from rfl,
        insertedRun_length]
      have h1 := List.toFinset_card_le arr
      have hM : MAX_FAST_UNIQUE_K = 2048 := rfl
      omega
    have hpc := processChunk_spec k arr (fun _ => (0 : Int), 0) [] (by simp) hcap
    have hsz : (processChunk k (fun _ => (0 : Int), 0) arr).2 =
        arr.toFinset.card := by
      have h2 := congrArg List.length hpc
      simp only [List.length_map, List.length_range] at h2
      rw [h2, show arr.foldl pureInsert [] = insertedRun arr from rfl,
        insertedRun_length]
    have hloop : uniqueKLoop k [arr] (fun _ => (0 : Int), 0) =
        processChunk k (fun _ => (0 : Int), 0) arr := by
      rw [uniqueKLoop]
      dsimp only
      rw [if_pos hk0, uniqueKLoop]
    rw [compute_unique_k, UniqueK_run, if_neg (by omega)]
    simp only [gpu_unique_k, Nat.min_eq_left (Nat.le_of_lt hk), hch, hloop, hsz]
    rw [if_neg (show ¬ arr.toFinset.card ≤ k by omega)]
    simp

/-- Witness for the amended C3: the spec scenario `data = [1,2,3]`,
`k = 2` raises the count error, and `k = MAX_FAST_UNIQUE_K` raises the
capability error. -/
theorem unique_k_errors_amended_witness :
    compute_unique_k [3] MAX_FAST_UNIQUE_K = Except.error UKErr.capability ∧
    compute_unique_k [1, 2, 3] 2 = Except.error UKErr.count :=
  ⟨unique_k_errors_amended.1 [3] MAX_FAST_UNIQUE_K (Nat.le_refl _),
   unique_k_errors_amended.2 [1, 2, 3] 2 (by decide) (by decide) (by decide)
     (by decide)⟩

set_option maxRecDepth 4000 in
/-- Counterexample to C3 as stated: the 65-element array of 64 copies
of 1 followed by a single 2 has 2 > 1 distinct values, yet with
`k = 1` the kernel stops at the 64-element chunk boundary with its set
already full and returns `[1]` with no error at all. -/
theorem unique_k_overflow_missed_counterexample :
    compute_unique_k (List.replicate 64 1 ++ [2]) 1 = Except.ok [1] ∧
    1 < ((List.replicate 64 (1 : Int) ++ [2]).toFinset.card) :=
  ⟨rfl, by decide⟩

/-- Claim C10: for the empty input array and any `0 < k <
MAX_FAST_UNIQUE_K`, `compute_unique_k` returns the empty result with
no error: the chunk loop never runs, the set size stays 0 and the host
slices zero elements. -/
theorem compute_unique_k_empty (k : Nat) (hk0 : 0 < k)
    (hk : k < MAX_FAST_UNIQUE_K) :
    compute_unique_k [] k = Except.ok [] := by
  rw [compute_unique_k, UniqueK_run, if_neg (by omega)]
  simp only [gpu_unique_k, chunksOf, List.length_nil, chunksOfAux, uniqueKLoop]
  simp

/-- Witness for C10 at `k = 5`. -/
theorem compute_unique_k_empty_witness :
    compute_unique_k [] 5 = Except.ok [] :=
  compute_unique_k_empty 5 (by decide) (by decide)
